import Mathlib

/-!
Verification of the Algebra DEX liquidity-book engine
(`src/dex/algebra/algebra.ts`, `src/dex/algebra/mostSignificantBit.ts`).

The pool state kept by `AlgebraEventPool` is embedded below together with
its event handlers (`handleSwap`, `handleChangeFee`, `handleBurn`,
`handleMint`, `handleInitialize` — the last one named `handleInit` here),
the binary search `getTickIdx`, the `mostSignificantBit` helper, and the
pricing loop of `getBuyPrice` / `getSellPrice`.

Modelling conventions, each justified against the TypeScript source:

* `bigint` and JS `number` values used as tick indices, liquidity or fees
  are embedded as `Int` (the source uses arbitrary-precision integers).
* `handleMint` executes `pool.ticks.push(bottomTick)` when a boundary tick
  is absent, pushing the bare number `bottomTick` into the `TickState[]`
  array.  A JavaScript array can hold such a value, so a ticks-array
  element is embedded as `TickEntry`: either a `proper` record or a `raw`
  bare number.  Reading `.tickIdx` of a `raw` element yields `undefined`,
  embedded as `none`.
* The handlers mutate the `pool` object they receive (the previous
  snapshot, declared `DeepReadonly` in `processLog`) and return that same
  object.  Each handler is therefore embedded as
  `PoolState → PoolState × Option PoolState`: the first component is the
  content of the caller's pool object after the call (JS objects are
  passed by reference, so the caller's alias observes every field
  assignment, including assignments made before an exception), and the
  second component is `some returned` on normal return and `none` when
  the handler throws (the surrounding `try`/`catch` of `processLog`
  turns a throw into a `null` result).
* `Array.prototype.sort` is called with the comparator
  `a.tickIdx - b.tickIdx`.  When an operand is a `raw` element the
  subtraction involves `undefined` and evaluates to `NaN`, which the
  ECMAScript `SortCompare` operation converts to `+0` (elements compare
  as equal); ECMAScript sorting is stable.  The sort is embedded as a
  stable insertion sort over that comparator, which agrees with any
  stable ECMAScript sort on the lists reached in the theorems below
  (lists that are already sorted with pairwise-distinct keys, and
  two-element lists whose elements all compare equal).
* `Array.prototype.slice(i, 1)` in `handleBurn` returns a fresh array
  and does not modify `pool.ticks`; it is embedded as a no-op.
-/

/-- Embedding of `TickState` from `src/dex/algebra/types.ts`. -/
structure TickState where
  tickIdx : Int
  liquidityDelta : Int
  upper : Bool
deriving DecidableEq, Repr

/-- One element of the JS `pool.ticks` array: either a proper `TickState`
record, or the bare number pushed by `handleMint`'s
`pool.ticks.push(bottomTick)`. -/
inductive TickEntry where
  | proper (t : TickState)
  | raw (n : Int)
deriving DecidableEq, Repr

/-- Reading `.tickIdx` of a ticks-array element; on a bare number this is
`undefined`, embedded as `none`. -/
def TickEntry.tickIdxJs : TickEntry → Option Int
  | .proper t => some t.tickIdx
  | .raw _ => none

/-- Embedding of `PoolState` from `src/dex/algebra/types.ts`. -/
structure PoolState where
  ticks : List TickEntry
  currentTick : Int
  currentLiquidity : Int
  fee : Int
deriving DecidableEq, Repr

/-- JS array indexing `ticks[i]`: `undefined` (here `none`) when `i` is
negative or out of range. -/
def entryAt (l : List TickEntry) (i : Int) : Option TickEntry :=
  if i < 0 then none else l.get? i.toNat

/-- Value of `ticks[i].tickIdx` as seen by the comparisons in
`getTickIdx`: `none` both when the element is a bare number (its
`tickIdx` is `undefined`) and when the index is out of range. -/
def keyAtJs (l : List TickEntry) (i : Int) : Option Int :=
  (entryAt l i).bind TickEntry.tickIdxJs

/-- The JS comparison `tick < ticks[mid].tickIdx`: false when the right
operand is `undefined` (a comparison with `NaN`). -/
def jsLtOpt (a : Int) : Option Int → Bool
  | some v => a < v
  | none => false

/-- The loop of `getTickIdx` (algebra.ts lines 140-146).  The first `Nat`
argument is fuel standing in for the `while (left <= right)` loop; every
iteration shrinks the window `[left, right]` by at least one element, so
fuel equal to the initial window size makes the embedding exact.
`ticks[mid].tickIdx === tick` holds exactly when the element is a proper
record with that index (`keyAtJs = some tick`); when the first comparison
and `tick < ticks[mid].tickIdx` both fail (in particular at a bare-number
element, where both are comparisons with `undefined`), control reaches
`left = mid + 1`. -/
def getTickIdxGo (ticks : List TickEntry) (tick : Int) : Nat → Int → Int → Int
  | 0, _, _ => -1
  | fuel + 1, left, right =>
    if left ≤ right then
      if keyAtJs ticks ((left + right) / 2) = some tick then (left + right) / 2
      else if jsLtOpt tick (keyAtJs ticks ((left + right) / 2)) then
        getTickIdxGo ticks tick fuel left ((left + right) / 2 - 1)
      else getTickIdxGo ticks tick fuel ((left + right) / 2 + 1) right
    else -1

/-- Embedding of `getTickIdx` (algebra.ts lines 136-149). -/
def getTickIdx (tick : Int) (ticks : List TickEntry) : Int :=
  getTickIdxGo ticks tick ticks.length 0 ((ticks.length : Int) - 1)

/-- Replace the element at position `i` of a list by its image under `f`;
out-of-range leaves the list unchanged. -/
def updAt {α : Type} (f : α → α) : List α → Nat → List α
  | [], _ => []
  | x :: xs, 0 => f x :: xs
  | x :: xs, n + 1 => x :: updAt f xs n

/-- In-place field update `ticks[i] := f ticks[i]` at a JS (possibly
negative) index.  Every call site first checks the index against `-1`,
and `getTickIdx` only returns `-1` or a valid position, so the negative
branch is unreachable from the handlers. -/
def updAtI (f : TickEntry → TickEntry) (l : List TickEntry) (i : Int) : List TickEntry :=
  if i < 0 then l else updAt f l i.toNat

/-- Lift a `TickState` field update to a ticks-array element.  A `raw`
element is left alone: the only call sites run on an index returned by
`getTickIdx`, which only ever matches proper entries. -/
def liftBump (g : TickState → TickState) : TickEntry → TickEntry
  | .proper t => .proper (g t)
  | .raw n => .raw n

/-- Mint at `bottomTick` (algebra.ts lines 189-193): `upper` entries get
`-= amount`, others `+= amount`. -/
def mintBottomState (amount : Int) (t : TickState) : TickState :=
  { t with liquidityDelta :=
    if t.upper then t.liquidityDelta - amount else t.liquidityDelta + amount }

/-- Mint at `topTick` (algebra.ts lines 198-202): `upper` entries get
`+= amount`, others `-= amount`. -/
def mintTopState (amount : Int) (t : TickState) : TickState :=
  { t with liquidityDelta :=
    if t.upper then t.liquidityDelta + amount else t.liquidityDelta - amount }

/-- Burn at `bottomTick` (algebra.ts lines 157-161): `upper` entries get
`+= amount`, others `-= amount`. -/
def burnBottomState (amount : Int) (t : TickState) : TickState :=
  { t with liquidityDelta :=
    if t.upper then t.liquidityDelta + amount else t.liquidityDelta - amount }

/-- Burn at `topTick` (algebra.ts lines 162-166): `upper` entries get
`-= amount`, others `+= amount`. -/
def burnTopState (amount : Int) (t : TickState) : TickState :=
  { t with liquidityDelta :=
    if t.upper then t.liquidityDelta - amount else t.liquidityDelta + amount }

/-- Element-level form of the mint update at `bottomTick`. -/
def mintBottomBump (amount : Int) : TickEntry → TickEntry :=
  liftBump (mintBottomState amount)

/-- Element-level form of the mint update at `topTick`. -/
def mintTopBump (amount : Int) : TickEntry → TickEntry :=
  liftBump (mintTopState amount)

/-- Element-level form of the burn update at `bottomTick`. -/
def burnBottomBump (amount : Int) : TickEntry → TickEntry :=
  liftBump (burnBottomState amount)

/-- Element-level form of the burn update at `topTick`. -/
def burnTopBump (amount : Int) : TickEntry → TickEntry :=
  liftBump (burnTopState amount)

/-- The comparator `function (a, b) { return a.tickIdx - b.tickIdx }`
passed to `pool.ticks.sort` in `handleMint`.  When either element is a
bare number the subtraction involves `undefined` and gives `NaN`, which
`SortCompare` treats as `+0`. -/
def cmpJs : TickEntry → TickEntry → Int
  | .proper a, .proper b => a.tickIdx - b.tickIdx
  | _, _ => 0

/-- Stable insertion used to embed the ECMAScript stable sort: an element
is placed before the first element it does not compare strictly greater
than. -/
def insertJs (x : TickEntry) : List TickEntry → List TickEntry
  | [] => [x]
  | y :: ys => if cmpJs x y ≤ 0 then x :: y :: ys else y :: insertJs x ys

/-- Embedding of `pool.ticks.sort(comparator)` in `handleMint`
(algebra.ts lines 204-206) as a stable insertion sort. -/
def jsSortTicks (l : List TickEntry) : List TickEntry :=
  l.foldr insertJs []

/-- Embedding of `handleMint` (algebra.ts lines 180-211).  Both tick
indices are looked up before any modification; an absent boundary makes
the code push the bare number itself (`pool.ticks.push(bottomTick)`); the
liquidity bump is guarded by `currentTick < topTick && currentTick >
bottomTick`, so both boundaries are excluded. -/
def mintResult (bottomTick topTick amount : Int) (pool : PoolState) : PoolState :=
  let bIdx := getTickIdx bottomTick pool.ticks
  let tIdx := getTickIdx topTick pool.ticks
  let ticks1 :=
    if bIdx = -1 then pool.ticks ++ [TickEntry.raw bottomTick]
    else updAtI (mintBottomBump amount) pool.ticks bIdx
  let ticks2 :=
    if tIdx = -1 then ticks1 ++ [TickEntry.raw topTick]
    else updAtI (mintTopBump amount) ticks1 tIdx
  let ticks3 := jsSortTicks ticks2
  if pool.currentTick < topTick ∧ bottomTick < pool.currentTick then
    { pool with ticks := ticks3, currentLiquidity := pool.currentLiquidity + amount }
  else
    { pool with ticks := ticks3 }

/-- Heap-semantics form of `handleMint`: the handler mutates the pool
object it is given and returns that same object, and it cannot throw, so
the caller's alias and the returned reference both hold `mintResult`. -/
def handleMint (bottomTick topTick amount : Int) (pool : PoolState) :
    PoolState × Option PoolState :=
  (mintResult bottomTick topTick amount pool, some (mintResult bottomTick topTick amount pool))

/-- Embedding of `handleBurn` (algebra.ts lines 151-178).  When a looked
up index is `-1`, reading `.upper` of `pool.ticks[-1]` (`undefined`)
throws a `TypeError`; for the bottom tick this happens before any
mutation, for the top tick it happens after the bottom entry was already
updated, so the partially updated array stays behind in the pool object.
The two `pool.ticks.slice(idx, 1)` zero-delta checks do not modify the
array. -/
def handleBurn (bottomTick topTick amount : Int) (pool : PoolState) :
    PoolState × Option PoolState :=
  let bIdx := getTickIdx bottomTick pool.ticks
  let tIdx := getTickIdx topTick pool.ticks
  if bIdx = -1 then (pool, none)
  else
    let p1 := { pool with ticks := updAtI (burnBottomBump amount) pool.ticks bIdx }
    if tIdx = -1 then (p1, none)
    else
      let p2 := { p1 with ticks := updAtI (burnTopBump amount) p1.ticks tIdx }
      let p3 :=
        if pool.currentTick < topTick ∧ bottomTick < pool.currentTick then
          { p2 with currentLiquidity := p2.currentLiquidity - amount }
        else p2
      (p3, some p3)

/-- Embedding of `handleSwap` (algebra.ts lines 125-129).  The body reads
`event.arg.tick`, but a decoded log stores its fields under `args`, so
`event.arg` is `undefined` and the property read throws before any field
of the pool is assigned. -/
def handleSwap (_tick _liquidity : Int) (pool : PoolState) :
    PoolState × Option PoolState :=
  (pool, none)

/-- Embedding of `handleChangeFee` (algebra.ts lines 131-134): assigns
`event.args.Fee` to `pool.fee` and returns the pool.  The embedding takes
the decoded `Fee` field as an integer argument. -/
def handleChangeFee (newFee : Int) (pool : PoolState) :
    PoolState × Option PoolState :=
  ({ pool with fee := newFee }, some { pool with fee := newFee })

/-- Embedding of `handleInitialize` (algebra.ts lines 213-217): assigns
the constant `500` to `pool.fee` and the event's tick to
`pool.currentTick`, touching no other field; the event's own fee value is
never read. -/
def handleInit (tick : Int) (_fee : Int) (pool : PoolState) :
    PoolState × Option PoolState :=
  ({ pool with currentTick := tick, fee := 500 },
   some { pool with currentTick := tick, fee := 500 })

/-- A decoded pool event, one constructor per registered handler. -/
inductive PoolEvent where
  | swap (tick liquidity : Int)
  | changeFee (newFee : Int)
  | burn (bottomTick topTick amount : Int)
  | mint (bottomTick topTick amount : Int)
  | init (tick fee : Int)
deriving DecidableEq, Repr

/-- Dispatch of a decoded event to its handler (the `handlers` table set
up in the constructor, algebra.ts lines 90-94). -/
def dispatchEvent : PoolEvent → PoolState → PoolState × Option PoolState
  | .swap t l, pool => handleSwap t l pool
  | .changeFee f, pool => handleChangeFee f pool
  | .burn b t a, pool => handleBurn b t a pool
  | .mint b t a, pool => handleMint b t a pool
  | .init t f, pool => handleInit t f pool

/-- Embedding of `processLog` (algebra.ts lines 106-123).  The argument
is the result of `logDecoder`: `none` when decoding threw (the `catch`
then returns `null` with the state object untouched).  When a handler
throws, the same `catch` returns `null`, but any field assignments the
handler made before throwing remain in the pool object, whose content is
the first component. -/
def processLog (decoded : Option PoolEvent) (state : PoolState) :
    PoolState × Option PoolState :=
  match decoded with
  | none => (state, none)
  | some e => dispatchEvent e state

/-- Content of the subscriber's pool object after an event was applied to
it (the handlers mutate the object in place, so this is the first
component of the heap-semantics pair whether or not the handler threw). -/
def applyEvent (e : PoolEvent) (s : PoolState) : PoolState :=
  (dispatchEvent e s).1

/-- A pool object before any event: no ticks, zero liquidity. -/
def emptyPool : PoolState :=
  { ticks := [], currentTick := 0, currentLiquidity := 0, fee := 0 }

/-- Sum of `liquidityNet` over all tick entries whose index is at most
`currentTick`.  A bare number pushed by `handleMint` has no
`liquidityDelta` field and contributes nothing. -/
def liquidityNetSum (s : PoolState) : Int :=
  (s.ticks.filterMap fun e =>
    match e with
    | .proper t => if t.tickIdx ≤ s.currentTick then some t.liquidityDelta else none
    | .raw _ => none).sum

/-- The constant array of `mostSignificantBit.ts` lines 5-10 (first
components of `POWERS_OF_2`). -/
def POWERS_OF_2 : List Nat := [128, 64, 32, 16, 8, 4, 2, 1]

/-- The loop of `mostSignificantBit` (mostSignificantBit.ts lines 15-21):
for each power, if `x` is at least `2 ^ power`, shift it right by `power`
bits and add `power` to the accumulator. -/
def msbLoop : List Nat → Nat → Nat → Nat × Nat
  | [], x, msb => (x, msb)
  | p :: ps, x, msb =>
    if 2 ^ p ≤ x then msbLoop ps (x / 2 ^ p) (msb + p) else msbLoop ps x msb

/-- The constant from `internalConstants.ts` (written there as the same
decimal literal, which equals `2 ^ 256 - 1`). -/
def MaxUint256 : Int :=
  115792089237316195423570985008687907853269984665640564039457584007913129639935

/-- Embedding of `mostSignificantBit` (mostSignificantBit.ts lines
12-23): `null` (here `none`) when `x ≤ 0` or `x > MaxUint256`, otherwise
the accumulated shift count. -/
def mostSignificantBit (x : Int) : Option Nat :=
  if x ≤ 0 ∨ MaxUint256 < x then none
  else some (msbLoop POWERS_OF_2 x.toNat 0).2

/-- Remaining amount after `n` iterations of the `while (destAmount > 0)`
loop shared by `getBuyPrice` (algebra.ts lines 352-365) and
`getSellPrice` (lines 374-387).  Modelled from the spec:
`SwapMath.computeSwapStep`, imported from `./swapMath`, is not under
`src/`; per spec section 4.3 a step consumes either the full remaining
amount (partial step) or exactly the input needed to move the price to
the target (full step).  The loop recomputes `sqrtRatioCurrentX96` from
the never-changing `pool.currentTick` on every iteration and passes the
same target every time, so for a fixed pool state the input consumed by
one iteration is a fixed function `stepAmountIn` of the remaining
amount, which is the only loop-carried value the guard depends on. -/
def buyLoopRemaining (stepAmountIn : Int → Int) : Nat → Int → Int
  | 0, d => d
  | n + 1, d => if 0 < d then buyLoopRemaining stepAmountIn n (d - stepAmountIn d) else d

/-- A per-iteration consumption function realisable by the spec's
`computeSwapStep`: it never consumes a negative amount and never more
than the remaining amount. -/
def SpecConsistentStep (stepAmountIn : Int → Int) : Prop :=
  ∀ d : Int, 0 ≤ stepAmountIn d ∧ stepAmountIn d ≤ max d 0

/-- The spec's `computeSwapStep` at a target the price has already
reached: the input needed to move the price to the target is zero, so a
full step consumes zero. -/
def zeroDistanceStep : Int → Int := fun _ => 0

/-- The loop of `getBuyPrice` or `getSellPrice` terminates within `n`
iterations on remaining amount `d`. -/
def loopTerminatesWithin (stepAmountIn : Int → Int) (n : Nat) (d : Int) : Prop :=
  buyLoopRemaining stepAmountIn n d ≤ 0

/-- Power list `[2 ^ (n-1), ..., 2, 1]`; `POWERS_OF_2` is `powList 8`. -/
def powList : Nat → List Nat
  | 0 => []
  | n + 1 => 2 ^ n :: powList n

set_option maxRecDepth 8000

lemma POWERS_OF_2_eq_powList : POWERS_OF_2 = powList 8 := by
  simp [POWERS_OF_2, powList]

/-- Invariant of the shift cascade in `mostSignificantBit`: running the
loop over `powList n` on a value below `2 ^ 2 ^ n` accumulates exactly
the index of the most significant set bit. -/
lemma msbLoop_powList :
    ∀ (n : Nat) (x m : Nat), 1 ≤ x → x < 2 ^ 2 ^ n →
      ∃ k : Nat, msbLoop (powList n) x m = (x / 2 ^ k, m + k) ∧
        2 ^ k ≤ x ∧ x < 2 ^ (k + 1) := by
  intro n
  induction n with
  | zero =>
    intro x m h1 h2
    refine ⟨0, ?_, ?_, ?_⟩
    · simp [powList, msbLoop]
    · simpa using h1
    · simpa using h2
  | succ n ih =>
    intro x m h1 h2
    have hpos : 0 < 2 ^ 2 ^ n := Nat.pos_pow_of_pos _ (by norm_num)
    have hsplit : 2 ^ 2 ^ (n + 1) = 2 ^ 2 ^ n * 2 ^ 2 ^ n := by
      rw [← pow_add]
      congr 1
      rw [pow_succ]
      omega
    simp only [powList, msbLoop]
    by_cases hc : 2 ^ 2 ^ n ≤ x
    · rw [if_pos hc]
      have hy1 : 1 ≤ x / 2 ^ 2 ^ n := (Nat.one_le_div_iff hpos).mpr hc
      have hy2 : x / 2 ^ 2 ^ n < 2 ^ 2 ^ n := by
        rw [Nat.div_lt_iff_lt_mul hpos]
        calc x < 2 ^ 2 ^ (n + 1) := h2
          _ = 2 ^ 2 ^ n * 2 ^ 2 ^ n := hsplit
      obtain ⟨k, hk, hk1, hk2⟩ := ih (x / 2 ^ 2 ^ n) (m + 2 ^ n) hy1 hy2
      refine ⟨2 ^ n + k, ?_, ?_, ?_⟩
      · rw [hk]
        refine Prod.ext ?_ ?_
        · show x / 2 ^ 2 ^ n / 2 ^ k = x / 2 ^ (2 ^ n + k)
          rw [Nat.div_div_eq_div_mul, ← pow_add]
        · show m + 2 ^ n + k = m + (2 ^ n + k)
          omega
      · rw [pow_add]
        have := (Nat.le_div_iff_mul_le hpos).mp hk1
        calc 2 ^ 2 ^ n * 2 ^ k = 2 ^ k * 2 ^ 2 ^ n := mul_comm _ _
          _ ≤ x := this
      · have := (Nat.div_lt_iff_lt_mul hpos).mp hk2
        calc x < 2 ^ (k + 1) * 2 ^ 2 ^ n := this
          _ = 2 ^ (2 ^ n + k + 1) := by rw [← pow_add]; congr 1; omega
    · rw [if_neg hc]
      push_neg at hc
      exact ih x m h1 hc

lemma two_pow_256_nat :
    (2 : Nat) ^ 256 =
      115792089237316195423570985008687907853269984665640564039457584007913129639936 := by
  norm_num

/-- C8: for every `x` with `1 ≤ x ≤ 2^256 - 1`, `mostSignificantBit x`
returns the 0-based index `m` of the most significant set bit of `x`
(`2^m ≤ x < 2^(m+1)`, with the values `0`, `1` and `128` at the inputs
`1`, `2` and `2^128`), and for every `x ≤ 0` or `x > 2^256 - 1` it
returns `null` rather than a number. -/
theorem mostSignificantBit_spec :
    (∀ x : Int,
      (1 ≤ x → x ≤ 2 ^ 256 - 1 →
        ∃ m : Nat, mostSignificantBit x = some m ∧ 2 ^ m ≤ x ∧ x < 2 ^ (m + 1)) ∧
      ((x ≤ 0 ∨ 2 ^ 256 - 1 < x) → mostSignificantBit x = none)) ∧
    mostSignificantBit 1 = some 0 ∧ mostSignificantBit 2 = some 1 ∧
    mostSignificantBit (2 ^ 128) = some 128 ∧
    mostSignificantBit 0 = none ∧ mostSignificantBit (2 ^ 256) = none := by
  have hM : MaxUint256 = 2 ^ 256 - 1 := by norm_num [MaxUint256]
  refine ⟨fun x => ⟨?_, ?_⟩, by decide, by decide, by decide, by decide, by decide⟩
  · intro h1 h2
    have hguard : ¬ (x ≤ 0 ∨ MaxUint256 < x) := by
      rw [hM]; omega
    have hxn1 : 1 ≤ x.toNat := by omega
    have hxn2 : x.toNat < 2 ^ 2 ^ 8 := by
      have h256 : (2 : Int) ^ 256 - 1 =
          115792089237316195423570985008687907853269984665640564039457584007913129639935 := by
        norm_num
      have hn : (2 : Nat) ^ 2 ^ 8 = 2 ^ 256 := by norm_num
      rw [hn, two_pow_256_nat]
      omega
    obtain ⟨k, hk, hk1, hk2⟩ := msbLoop_powList 8 x.toNat 0 hxn1 hxn2
    refine ⟨k, ?_, ?_, ?_⟩
    · rw [mostSignificantBit, if_neg hguard, POWERS_OF_2_eq_powList, hk]
      simp
    · have := Int.ofNat_le.mpr hk1
      push_cast at this
      omega
    · have := Int.ofNat_le.mpr (Nat.succ_le_of_lt hk2)
      push_cast at this
      omega
  · intro h
    rw [mostSignificantBit, if_pos (by rw [hM]; omega)]

/-- Witness for C8 at the concrete input `2 ^ 128`. -/
theorem mostSignificantBit_spec_witness :
    ∃ m : Nat, mostSignificantBit (2 ^ 128) = some m ∧
      (2 : Int) ^ m ≤ 2 ^ 128 ∧ (2 : Int) ^ 128 < 2 ^ (m + 1) :=
  (mostSignificantBit_spec.1 (2 ^ 128)).1 (by norm_num) (by norm_num)

/-- When no index in the current window carries the requested tick, the
search loop exits with `-1` (no sortedness needed: a non-negative result
is only ever produced at a matching proper entry). -/
lemma getTickIdxGo_notFound (l : List TickEntry) (tick : Int) :
    ∀ (fuel : Nat) (left right : Int),
      (∀ i : Int, left ≤ i → i ≤ right → keyAtJs l i ≠ some tick) →
      getTickIdxGo l tick fuel left right = -1 := by
  intro fuel
  induction fuel with
  | zero => intro left right h; rfl
  | succ f ihf =>
    intro left right h
    rw [getTickIdxGo]
    by_cases hlr : left ≤ right
    · rw [if_pos hlr]
      have hmk := h ((left + right) / 2) (by omega) (by omega)
      rw [if_neg hmk]
      by_cases hlt : jsLtOpt tick (keyAtJs l ((left + right) / 2)) = true
      · rw [if_pos hlt]
        exact ihf left ((left + right) / 2 - 1) fun i hi1 hi2 => h i hi1 (by omega)
      · rw [if_neg hlt]
        exact ihf ((left + right) / 2 + 1) right fun i hi1 hi2 => h i (by omega) hi2
    · rw [if_neg hlr]

/-- On an array of proper entries, the key read at a valid index is that
entry's `tickIdx`. -/
lemma keyAtJs_map_proper (ts : List TickState) (j : Int) (h0 : 0 ≤ j)
    (h1 : j.toNat < ts.length) :
    keyAtJs (ts.map TickEntry.proper) j = some ((ts.get ⟨j.toNat, h1⟩).tickIdx) := by
  unfold keyAtJs entryAt
  rw [if_neg (by omega)]
  rw [List.get?_map, List.get?_eq_get h1]
  rfl

/-- Strictly sorted keys are strictly monotone in the position. -/
lemma tickIdx_strict (ts : List TickState)
    (hs : (ts.map TickState.tickIdx).Pairwise (· < ·))
    (i j : Nat) (hi : i < ts.length) (hj : j < ts.length) (hij : i < j) :
    (ts.get ⟨i, hi⟩).tickIdx < (ts.get ⟨j, hj⟩).tickIdx := by
  rw [List.pairwise_map] at hs
  exact List.pairwise_iff_get.mp hs ⟨i, hi⟩ ⟨j, hj⟩ hij

/-- On a strictly sorted array of proper entries the search loop returns
the position of the entry carrying the requested tick, provided the
window contains it and the fuel covers the window. -/
lemma getTickIdxGo_found (ts : List TickState) (tick : Int)
    (hs : (ts.map TickState.tickIdx).Pairwise (· < ·)) :
    ∀ (fuel : Nat) (left right : Int) (i : Nat) (hi : i < ts.length),
      (right + 1 - left).toNat ≤ fuel → 0 ≤ left →
      right ≤ (ts.length : Int) - 1 →
      left ≤ (i : Int) → (i : Int) ≤ right →
      (ts.get ⟨i, hi⟩).tickIdx = tick →
      getTickIdxGo (ts.map TickEntry.proper) tick fuel left right = (i : Int) := by
  intro fuel
  induction fuel with
  | zero => intro left right i hi hfuel h0 hr hl hir ht; omega
  | succ f ihf =>
    intro left right i hi hfuel h0 hr hl hir ht
    have hlr : left ≤ right := le_trans hl hir
    have hm0 : 0 ≤ (left + right) / 2 := by omega
    have hm1 : (left + right) / 2 ≤ right := by omega
    have hm2 : left ≤ (left + right) / 2 := by omega
    have hmlen : ((left + right) / 2).toNat < ts.length := by omega
    have hkey := keyAtJs_map_proper ts ((left + right) / 2) hm0 hmlen
    rw [getTickIdxGo, if_pos hlr, hkey]
    by_cases hveq : (ts.get ⟨((left + right) / 2).toNat, hmlen⟩).tickIdx = tick
    · rw [if_pos (by rw [hveq])]
      have hmi : ((left + right) / 2).toNat = i := by
        rcases lt_trichotomy (((left + right) / 2).toNat) i with h | h | h
        · have := tickIdx_strict ts hs _ _ hmlen hi h
          omega
        · exact h
        · have := tickIdx_strict ts hs _ _ hi hmlen h
          omega
      omega
    · rw [if_neg (by simpa using hveq)]
      by_cases hlt : tick < (ts.get ⟨((left + right) / 2).toNat, hmlen⟩).tickIdx
      · have hile : i < ((left + right) / 2).toNat := by
          by_contra hge
          push_neg at hge
          rcases Nat.eq_or_lt_of_le hge with h | h
          · apply hveq
            have he : (⟨((left + right) / 2).toNat, hmlen⟩ : Fin ts.length) = ⟨i, hi⟩ :=
              Fin.mk_eq_mk.mpr (by omega)
            rw [he]
            exact ht
          · have := tickIdx_strict ts hs _ _ hmlen hi h
            omega
        rw [if_pos (by simp only [jsLtOpt, decide_eq_true_eq]; exact hlt)]
        exact ihf left ((left + right) / 2 - 1) i hi (by omega) h0 (by omega) hl (by omega) ht
      · have hvlt : (ts.get ⟨((left + right) / 2).toNat, hmlen⟩).tickIdx < tick := by
          omega
        have hgt : ((left + right) / 2).toNat < i := by
          by_contra hge
          push_neg at hge
          rcases Nat.eq_or_lt_of_le hge with h | h
          · apply hveq
            have he : (⟨((left + right) / 2).toNat, hmlen⟩ : Fin ts.length) = ⟨i, hi⟩ :=
              Fin.mk_eq_mk.mpr (by omega)
            rw [he]
            exact ht
          · have := tickIdx_strict ts hs _ _ hi hmlen h
            omega
        rw [if_neg (by simp only [jsLtOpt, decide_eq_true_eq]; omega)]
        exact ihf ((left + right) / 2 + 1) right i hi (by omega) (by omega) hr (by omega) hir ht

/-- Top-level form of the previous lemma for `getTickIdx`. -/
lemma getTickIdx_found (ts : List TickState) (tick : Int)
    (hs : (ts.map TickState.tickIdx).Pairwise (· < ·))
    (i : Nat) (hi : i < ts.length)
    (ht : (ts.get ⟨i, hi⟩).tickIdx = tick) :
    getTickIdx tick (ts.map TickEntry.proper) = (i : Int) := by
  unfold getTickIdx
  rw [List.length_map]
  exact getTickIdxGo_found ts tick hs ts.length 0 ((ts.length : Int) - 1) i hi
    (by omega) (by omega) (by omega) (by omega) (by omega) ht

/-- Top-level form of the not-found lemma for `getTickIdx`. -/
lemma getTickIdx_notFound (l : List TickEntry) (tick : Int)
    (h : ∀ i : Int, keyAtJs l i ≠ some tick) :
    getTickIdx tick l = -1 :=
  getTickIdxGo_notFound l tick _ _ _ (fun i hi1 _ => h i)

/-- If no element of a proper-entry array carries the requested tick,
no key read can produce it. -/
lemma keyAtJs_mem (ts : List TickState) (tick : Int)
    (h : ∀ t ∈ ts, t.tickIdx ≠ tick) :
    ∀ i : Int, keyAtJs (ts.map TickEntry.proper) i ≠ some tick := by
  intro i hk
  unfold keyAtJs entryAt at hk
  by_cases h0 : i < 0
  · rw [if_pos h0] at hk
    simp at hk
  · rw [if_neg h0, List.get?_map] at hk
    cases hg : ts.get? i.toNat with
    | none => rw [hg] at hk; simp at hk
    | some t =>
      rw [hg] at hk
      simp [TickEntry.tickIdxJs] at hk
      exact h t (List.get?_mem hg) hk

/-- Updating one position preserves the length. -/
lemma updAt_length {α : Type} (f : α → α) :
    ∀ (l : List α) (n : Nat), (updAt f l n).length = l.length := by
  intro l
  induction l with
  | nil => intro n; rfl
  | cons x xs ih => intro n; cases n with
    | zero => rfl
    | succ m => simpa [updAt] using ih m

/-- A lifted update on an array of proper entries is the mapped update
on the underlying records. -/
lemma updAt_map_lift (g : TickState → TickState) :
    ∀ (ts : List TickState) (n : Nat),
      updAt (liftBump g) (ts.map TickEntry.proper) n =
        (updAt g ts n).map TickEntry.proper := by
  intro ts
  induction ts with
  | nil => intro n; rfl
  | cons x xs ih => intro n; cases n with
    | zero => rfl
    | succ m => simpa [updAt, liftBump] using ih m

/-- An update that preserves `tickIdx` preserves the key sequence. -/
lemma updAt_tickIdx (g : TickState → TickState)
    (hg : ∀ t, (g t).tickIdx = t.tickIdx) :
    ∀ (ts : List TickState) (n : Nat),
      (updAt g ts n).map TickState.tickIdx = ts.map TickState.tickIdx := by
  intro ts
  induction ts with
  | nil => intro n; rfl
  | cons x xs ih => intro n; cases n with
    | zero => simp [updAt, hg]
    | succ m => simpa [updAt] using ih m

/-- Two updates at the same position compose. -/
lemma updAt_updAt_same {α : Type} (f g : α → α) :
    ∀ (l : List α) (n : Nat),
      updAt f (updAt g l n) n = updAt (fun x => f (g x)) l n := by
  intro l
  induction l with
  | nil => intro n; rfl
  | cons x xs ih => intro n; cases n with
    | zero => rfl
    | succ m => simpa [updAt] using ih m

/-- Updates at distinct positions commute. -/
lemma updAt_comm {α : Type} (f g : α → α) :
    ∀ (l : List α) (m n : Nat), m ≠ n →
      updAt f (updAt g l n) m = updAt g (updAt f l m) n := by
  intro l
  induction l with
  | nil => intro m n _; rfl
  | cons x xs ih =>
    intro m n hmn
    cases m with
    | zero => cases n with
      | zero => exact absurd rfl hmn
      | succ n2 => rfl
    | succ m2 => cases n with
      | zero => rfl
      | succ n2 => simpa [updAt] using ih m2 n2 (by omega)

/-- An update by a pointwise-identity function is the identity. -/
lemma updAt_id {α : Type} (f : α → α) (hf : ∀ x, f x = x) :
    ∀ (l : List α) (n : Nat), updAt f l n = l := by
  intro l
  induction l with
  | nil => intro n; rfl
  | cons x xs ih => intro n; cases n with
    | zero => simp [updAt, hf]
    | succ m => simpa [updAt] using ih m

/-- At a non-negative index the JS update is the list update. -/
lemma updAtI_natCast (f : TickEntry → TickEntry) (l : List TickEntry) (n : Nat) :
    updAtI f l (n : Int) = updAt f l n := by
  unfold updAtI
  rw [if_neg (by omega)]
  simp

/-- Sorting an array of proper entries that is already strictly sorted
by `tickIdx` leaves it unchanged. -/
lemma jsSortTicks_sorted : ∀ (ts : List TickState),
    (ts.map TickState.tickIdx).Pairwise (· < ·) →
    jsSortTicks (ts.map TickEntry.proper) = ts.map TickEntry.proper := by
  intro ts
  induction ts with
  | nil => intro h; rfl
  | cons x xs ih =>
    intro hs
    have htail : (xs.map TickState.tickIdx).Pairwise (· < ·) := by
      rw [List.map_cons, List.pairwise_cons] at hs
      exact hs.2
    have hstep : jsSortTicks ((x :: xs).map TickEntry.proper) =
        insertJs (TickEntry.proper x) (jsSortTicks (xs.map TickEntry.proper)) := rfl
    rw [hstep, ih htail]
    cases xs with
    | nil => rfl
    | cons y ys =>
      have hxy : x.tickIdx < y.tickIdx := by
        rw [List.map_cons, List.pairwise_cons] at hs
        exact hs.1 y.tickIdx (by simp)
      show insertJs (TickEntry.proper x)
          (TickEntry.proper y :: ys.map TickEntry.proper) = _
      rw [insertJs, if_pos (by simp [cmpJs]; omega)]
      rfl

/-- Lists with the same key sequence agree on the key at each position. -/
lemma tickIdx_eq_of_map_eq {ts ts2 : List TickState}
    (h : ts2.map TickState.tickIdx = ts.map TickState.tickIdx)
    (i : Nat) (hi : i < ts.length) (hi2 : i < ts2.length) :
    (ts2.get ⟨i, hi2⟩).tickIdx = (ts.get ⟨i, hi⟩).tickIdx := by
  have h1 : (ts2.map TickState.tickIdx).get? i = (ts.map TickState.tickIdx).get? i := by
    rw [h]
  rw [List.get?_map, List.get?_map, List.get?_eq_get hi2, List.get?_eq_get hi] at h1
  simpa using h1

/-- C4 (amended): on a book whose ticks are proper entries strictly
sorted by index and that already contains entries at both boundaries `a`
and `b`, applying `Mint(a, b, L)` and then `Burn(a, b, L)` returns a pool
state identical to the original in every field (ticks, currentLiquidity,
currentTick and fee). -/
theorem mintBurn_roundtrip (ts : List TickState) (ct cl fe a b L : Int)
    (hs : (ts.map TickState.tickIdx).Pairwise (· < ·))
    (ia : Nat) (hia : ia < ts.length) (ha : (ts.get ⟨ia, hia⟩).tickIdx = a)
    (ib : Nat) (hib : ib < ts.length) (hb : (ts.get ⟨ib, hib⟩).tickIdx = b) :
    (handleBurn a b L (mintResult a b L
        ⟨ts.map TickEntry.proper, ct, cl, fe⟩)).2 =
      some ⟨ts.map TickEntry.proper, ct, cl, fe⟩ := by
  have hbIdx : getTickIdx a (ts.map TickEntry.proper) = (ia : Int) :=
    getTickIdx_found ts a hs ia hia ha
  have htIdx : getTickIdx b (ts.map TickEntry.proper) = (ib : Int) :=
    getTickIdx_found ts b hs ib hib hb
  have hia' : ¬((ia : Int) = -1) := by omega
  have hib' : ¬((ib : Int) = -1) := by omega
  have hk1 : (updAt (mintBottomState L) ts ia).map TickState.tickIdx =
      ts.map TickState.tickIdx := updAt_tickIdx (mintBottomState L) (fun t => rfl) ts ia
  have hk2 : ((updAt (mintTopState L) (updAt (mintBottomState L) ts ia) ib).map
      TickState.tickIdx) = ts.map TickState.tickIdx := by
    rw [updAt_tickIdx (mintTopState L) (fun t => rfl) _ ib, hk1]
  have hlen2 : (updAt (mintTopState L) (updAt (mintBottomState L) ts ia) ib).length =
      ts.length := by
    rw [updAt_length, updAt_length]
  have hs2 : ((updAt (mintTopState L) (updAt (mintBottomState L) ts ia) ib).map
      TickState.tickIdx).Pairwise (· < ·) := by
    rw [hk2]; exact hs
  have hsort := jsSortTicks_sorted _ hs2
  have hmint : mintResult a b L ⟨ts.map TickEntry.proper, ct, cl, fe⟩ =
      ⟨(updAt (mintTopState L) (updAt (mintBottomState L) ts ia) ib).map
          TickEntry.proper,
        ct, if ct < b ∧ a < ct then cl + L else cl, fe⟩ := by
    by_cases hc : ct < b ∧ a < ct
    · simp only [mintResult, hbIdx, htIdx, if_neg hia', if_neg hib', updAtI_natCast,
        mintBottomBump, mintTopBump, updAt_map_lift, hsort, if_pos hc]
    · simp only [mintResult, hbIdx, htIdx, if_neg hia', if_neg hib', updAtI_natCast,
        mintBottomBump, mintTopBump, updAt_map_lift, hsort, if_neg hc]
  have hia2 : ia < (updAt (mintTopState L) (updAt (mintBottomState L) ts ia) ib).length := by
    omega
  have hib2 : ib < (updAt (mintTopState L) (updAt (mintBottomState L) ts ia) ib).length := by
    omega
  have ha2 : ((updAt (mintTopState L) (updAt (mintBottomState L) ts ia) ib).get
      ⟨ia, hia2⟩).tickIdx = a := by
    rw [tickIdx_eq_of_map_eq hk2 ia hia hia2]
    exact ha
  have hb2 : ((updAt (mintTopState L) (updAt (mintBottomState L) ts ia) ib).get
      ⟨ib, hib2⟩).tickIdx = b := by
    rw [tickIdx_eq_of_map_eq hk2 ib hib hib2]
    exact hb
  have hbIdx2 : getTickIdx a ((updAt (mintTopState L)
      (updAt (mintBottomState L) ts ia) ib).map TickEntry.proper) = (ia : Int) :=
    getTickIdx_found _ a hs2 ia hia2 ha2
  have htIdx2 : getTickIdx b ((updAt (mintTopState L)
      (updAt (mintBottomState L) ts ia) ib).map TickEntry.proper) = (ib : Int) :=
    getTickIdx_found _ b hs2 ib hib2 hb2
  have hts4 : updAt (burnTopState L) (updAt (burnBottomState L)
      (updAt (mintTopState L) (updAt (mintBottomState L) ts ia) ib) ia) ib = ts := by
    by_cases hab : ia = ib
    · subst hab
      rw [updAt_updAt_same, updAt_updAt_same, updAt_updAt_same]
      apply updAt_id
      intro t
      cases t with
      | mk ti d u =>
        cases u <;>
          simp [burnTopState, burnBottomState, mintTopState, mintBottomState]
    · have h1 : updAt (burnBottomState L) (updAt (mintBottomState L) ts ia) ia = ts := by
        rw [updAt_updAt_same]
        apply updAt_id
        intro t
        cases t with
        | mk ti d u =>
          cases u <;> simp [burnBottomState, mintBottomState]
      have h2 : ∀ l : List TickState,
          updAt (burnTopState L) (updAt (mintTopState L) l ib) ib = l := by
        intro l
        rw [updAt_updAt_same]
        apply updAt_id
        intro t
        cases t with
        | mk ti d u =>
          cases u <;> simp [burnTopState, mintTopState]
      rw [updAt_comm (burnBottomState L) (mintTopState L) _ ia ib hab, h1, h2]
  rw [hmint]
  by_cases hc : ct < b ∧ a < ct
  · rw [if_pos hc]
    simp only [handleBurn, hbIdx2, htIdx2, if_neg hia', if_neg hib', updAtI_natCast,
      burnBottomBump, burnTopBump, updAt_map_lift, hts4, if_pos hc,
      add_sub_cancel_right]
  · rw [if_neg hc]
    simp only [handleBurn, hbIdx2, htIdx2, if_neg hia', if_neg hib', updAtI_natCast,
      burnBottomBump, burnTopBump, updAt_map_lift, hts4, if_neg hc]

/-- The step count of the pricing loop for the step function that always
consumes zero never changes the remaining amount. -/
lemma buyLoopRemaining_zeroDistance :
    ∀ (n : Nat) (d : Int), buyLoopRemaining zeroDistanceStep n d = d := by
  intro n
  induction n with
  | zero => intro d; rfl
  | succ m ih =>
    intro d
    show (if 0 < d then
        buyLoopRemaining zeroDistanceStep m (d - zeroDistanceStep d) else d) = d
    by_cases h : 0 < d
    · rw [if_pos h]
      simpa [zeroDistanceStep] using ih d
    · rw [if_neg h]

/-- C7: the swap-simulation loop of `getBuyPrice` / `getSellPrice` is not
bounded by `ticks.length + 1` iterations.  With a spec-consistent step
function (the one `computeSwapStep` yields when the current price already
equals the target) and a pool with no ticks (cap `0 + 1 = 1`), the
remaining amount `7` is still `7` after any number of iterations, so the
loop neither terminates within the cap nor ever. -/
theorem pricing_loop_unbounded :
    SpecConsistentStep zeroDistanceStep ∧
    (∀ n : Nat, buyLoopRemaining zeroDistanceStep n 7 = 7) ∧
    ¬ loopTerminatesWithin zeroDistanceStep (emptyPool.ticks.length + 1) 7 := by
  refine ⟨fun d => ⟨le_refl 0, le_max_right d 0⟩,
    fun n => buyLoopRemaining_zeroDistance n 7, ?_⟩
  intro h
  rw [loopTerminatesWithin, buyLoopRemaining_zeroDistance] at h
  omega

/-- C10: on a ticks array of proper entries strictly sorted ascending by
`tickIdx`, `getTickIdx` returns the unique position whose entry carries
the requested tick when one exists, and `-1` when no entry does (in
particular on the empty array, where the second part applies
vacuously). -/
theorem getTickIdx_spec (ts : List TickState) (tick : Int)
    (hs : (ts.map TickState.tickIdx).Pairwise (· < ·)) :
    (∀ (i : Nat) (hi : i < ts.length), (ts.get ⟨i, hi⟩).tickIdx = tick →
      getTickIdx tick (ts.map TickEntry.proper) = (i : Int)) ∧
    ((∀ t ∈ ts, t.tickIdx ≠ tick) → getTickIdx tick (ts.map TickEntry.proper) = -1) :=
  ⟨fun i hi ht => getTickIdx_found ts tick hs i hi ht,
   fun h => getTickIdx_notFound _ tick (keyAtJs_mem ts tick h)⟩

/-- Witness for C10 on a concrete sorted two-entry array: tick `3` is
found at position `1`, tick `7` is reported absent. -/
theorem getTickIdx_spec_witness :
    getTickIdx 3 ([TickState.mk (-5) 1 false, TickState.mk 3 2 true].map
        TickEntry.proper) = 1 ∧
    getTickIdx 7 ([TickState.mk (-5) 1 false, TickState.mk 3 2 true].map
        TickEntry.proper) = -1 := by
  constructor
  · exact_mod_cast (getTickIdx_spec [TickState.mk (-5) 1 false, TickState.mk 3 2 true]
      3 (by decide)).1 1 (by decide) (by decide)
  · exact (getTickIdx_spec [TickState.mk (-5) 1 false, TickState.mk 3 2 true]
      7 (by decide)).2 (by decide)

/-- Witness for C4 (amended) on a concrete book holding boundary entries
at `-10` and `10`. -/
theorem mintBurn_roundtrip_witness :
    (handleBurn (-10) 10 3 (mintResult (-10) 10 3
        ⟨[TickState.mk (-10) 7 false, TickState.mk 10 7 true].map TickEntry.proper,
          0, 7, 1⟩)).2 =
      some ⟨[TickState.mk (-10) 7 false, TickState.mk 10 7 true].map TickEntry.proper,
        0, 7, 1⟩ :=
  mintBurn_roundtrip [TickState.mk (-10) 7 false, TickState.mk 10 7 true] 0 7 1
    (-10) 10 3 (by decide) 0 (by decide) (by decide) 1 (by decide) (by decide)

/-- C4 counterexample: starting from the empty book, `Mint(-10, 10, 5)`
pushes the bare numbers `-10` and `10` into `ticks`, and the following
`Burn(-10, 10, 5)` throws (its tick lookups fail), so the composite does
not return any state, let alone the original one. -/
theorem mintBurn_not_inverse_on_missing_ticks :
    (handleBurn (-10) 10 5 (mintResult (-10) 10 5 ⟨[], 0, 0, 1⟩)).2 = none ∧
    (mintResult (-10) 10 5 ⟨[], 0, 0, 1⟩).ticks ≠ ([] : List TickEntry) := by
  decide

/-- C9 (amended): `handleInitialize` sets `currentTick` to the event tick
and `fee` to the constant `500` (the event fee is never read), and leaves
`ticks` and `currentLiquidity` exactly as they were in the previous
state. -/
theorem handleInit_sets_tick_and_constant_fee (tick fee : Int) (pool : PoolState) :
    handleInit tick fee pool =
      ({ pool with currentTick := tick, fee := 500 },
       some { pool with currentTick := tick, fee := 500 }) := rfl

/-- C9 counterexample: initializing with event fee `3000` on a pool whose
book is nonempty with liquidity `7` produces fee `500` (not the event
fee), a still-nonempty ticks sequence, and liquidity still `7` (not
`0`). -/
theorem handleInit_ignores_event_fee :
    (handleInit 3 3000 ⟨[TickEntry.proper ⟨1, 2, false⟩], 5, 7, 100⟩).1.fee = 500 ∧
    (handleInit 3 3000 ⟨[TickEntry.proper ⟨1, 2, false⟩], 5, 7, 100⟩).1.ticks ≠ [] ∧
    (handleInit 3 3000
      ⟨[TickEntry.proper ⟨1, 2, false⟩], 5, 7, 100⟩).1.currentLiquidity = 7 := by
  decide

/-- C1: a state reachable from a fresh pool by `Initialize(0, 3000)` then
`Mint(-10, 10, 5)` violates the invariant: `currentLiquidity` is `5`, but
the sum of `liquidityNet` over tick entries with index at most
`currentTick = 0` is `0`, because the mint pushed bare numbers carrying
no liquidity delta instead of tick records. -/
theorem liquidity_invariant_violated :
    (applyEvent (.mint (-10) 10 5)
        (applyEvent (.init 0 3000) emptyPool)).currentLiquidity = 5 ∧
    liquidityNetSum (applyEvent (.mint (-10) 10 5)
        (applyEvent (.init 0 3000) emptyPool)) = 0 := by
  decide

/-- C2: applying `Mint(-10, 10, 5)` to a book without entries at the
boundaries leaves `ticks` holding the two bare numbers (no entry carries
the delta `5` or `-5`), and when `currentTick` equals `bottomTick` the
handler does not increase `currentLiquidity` (the code tests
`currentTick > bottomTick`, not `≥`), contradicting the claimed
`bottomTick ≤ currentTick < topTick` activation rule. -/
theorem handleMint_pushes_bare_numbers :
    (mintResult (-10) 10 5 ⟨[], 0, 0, 100⟩).ticks =
      [TickEntry.raw (-10), TickEntry.raw 10] ∧
    (mintResult (-10) 10 5 ⟨[], -10, 0, 100⟩).currentLiquidity = 0 := by
  decide

/-- C3: burning a position down to zero net liquidity leaves both
zero-delta entries in `ticks` (the removal calls `slice`, which does not
modify the array), so zero-net entries persist. -/
theorem zero_delta_entries_persist :
    (handleBurn 5 7 10 ⟨[TickEntry.proper ⟨5, 10, false⟩,
        TickEntry.proper ⟨7, 10, true⟩], 6, 10, 1⟩).2 =
      some ⟨[TickEntry.proper ⟨5, 0, false⟩, TickEntry.proper ⟨7, 0, true⟩], 6, 0, 1⟩ := by
  decide

/-- C5: `handleMint` mutates the previous snapshot in place — after the
call the caller's pool object no longer holds its old value — and the
value it returns is that same mutated object, not a fresh snapshot. -/
theorem handler_mutates_previous_snapshot :
    (handleMint (-10) 10 5 ⟨[], 0, 0, 1⟩).1 ≠ ⟨[], 0, 0, 1⟩ ∧
    (handleMint (-10) 10 5 ⟨[], 0, 0, 1⟩).2 =
      some (handleMint (-10) 10 5 ⟨[], 0, 0, 1⟩).1 := by
  decide

/-- C6: a `Burn(5, 7, 3)` whose top tick is absent makes `processLog`
return `null`, but the pool object is left partially updated: the bottom
entry's delta was already changed from `10` to `7` before the handler
threw on the missing top tick. -/
theorem processLog_partial_update_on_failure :
    processLog (some (.burn 5 7 3)) ⟨[TickEntry.proper ⟨5, 10, false⟩], 0, 0, 1⟩ =
      (⟨[TickEntry.proper ⟨5, 7, false⟩], 0, 0, 1⟩, none) ∧
    (⟨[TickEntry.proper ⟨5, 7, false⟩], 0, 0, 1⟩ : PoolState) ≠
      ⟨[TickEntry.proper ⟨5, 10, false⟩], 0, 0, 1⟩ := by
  decide
